import Mathlib

/-!
Verification of the EIR core IR against its implementation.

This file gives a shallow embedding of the parts of the repository that the
verified properties speak about:

* the per-function block/value graph of `libeir_ir/src/fun/mod.rs`
  (`ValueType`, `BlockData`, `Function`, `graph_validate_block`);
* the traversal machinery of `libeir_ir/src/graph/block_graph.rs`
  (successor/predecessor iteration, DFS and post-order DFS in the style of
  petgraph's `Dfs` / `DfsPostOrder` iterators over a visit map);
* the per-function LIR pass pipeline of `compiler/src/ir/mod.rs`
  (`from_parsed`);
* the preprocessor constant evaluator of
  `libeir_syntax_erl/src/preprocessor/evaluator.rs` (`eval`, `eval_unary_op`);
* models, written from the specification, of repository code that the
  provided sources only declare or call: the pooled bit-set iterator, the
  SSA scope tracker, lambda extraction, the LIR no-alias validation and the
  builder's `set_entry`.

Entity handles (`Block`, `Value`) are dense `u32` indices into `PrimaryMap`s;
they are embedded as `Nat` indices into Lean lists.
-/

namespace Eir

/-- Embeds `ValueType` from `libeir_ir/src/fun/mod.rs`: the four kinds a
value can have. -/
inductive ValueType where
  /-- Value is defined as an argument of the given block. -/
  | arg (block : Nat)
  /-- Value references the given block. -/
  | block (block : Nat)
  /-- Constant defined in the constant container (embedded as its handle). -/
  | constant (c : Nat)
  /-- Forwarding placeholder for a moved value; never part of the active graph. -/
  | alias (v : Nat)
deriving DecidableEq, Repr

/-- Embeds `ValueData`. The `usages` set and source span are omitted: no
operation embedded here reads them. -/
structure ValueData where
  kind : ValueType
deriving DecidableEq, Repr

/-- Embeds `BlockData`. The op kind and source span are omitted: no operation
embedded here reads them. The predecessor and successor pooled bit-sets are
embedded as `Finset Nat` (a bit-set stores exactly a set of dense indices). -/
structure BlockData where
  arguments : List Nat
  reads : List Nat
  predecessors : Finset Nat
  successors : Finset Nat
deriving DecidableEq

/-- Embeds `FunctionIdent`: `(module, name, arity)`. -/
structure FunctionIdent where
  module : String
  name : String
  arity : Nat
deriving DecidableEq, Repr

/-- Embeds `Function`: the dense block and value pools plus the optional
entry block. Fun-ref, clause and constant pools are omitted: no embedded
operation reads them. -/
structure Function where
  ident : FunctionIdent
  blocks : List BlockData
  values : List ValueData
  entryBlock : Option Nat
deriving DecidableEq

/-- Embeds `Function::new`: all pools empty, no entry block set. -/
def Function.new (ident : FunctionIdent) : Function :=
  { ident := ident, blocks := [], values := [], entryBlock := none }

/-- Embeds `Function::block_entry`, which unwraps the `Option` entry block.
The panic on an unset entry is embedded as `none`. -/
def Function.blockEntry (f : Function) : Option Nat :=
  f.entryBlock

/-- Modelled from the spec: the builder's `set_entry(B)`
(`FunctionBuilder::block_set_entry`, whose source is not under `src/`),
which stores B as the function's designated entry block. -/
def Function.setEntry (f : Function) (b : Nat) : Function :=
  { f with entryBlock := some b }

/-- Embeds `Function::value_kind`: look up a value's kind in the value pool.
An out-of-range handle, which panics in the source, is embedded as `none`. -/
def Function.valueKind (f : Function) (v : Nat) : Option ValueType :=
  (f.values[v]?).map ValueData.kind

/-- Embeds `Function::value_block`: the referenced block if the value has
block kind. -/
def Function.valueBlock (f : Function) (v : Nat) : Option Nat :=
  match f.valueKind v with
  | some (ValueType.block b) => some b
  | _ => none

/-- Embeds `Function::block_reads`. An out-of-range block handle, which
panics in the source, is embedded as the empty list. -/
def Function.blockReads (f : Function) (b : Nat) : List Nat :=
  match f.blocks[b]? with
  | some bd => bd.reads
  | none => []

/-- Embeds `Function::block_args`. -/
def Function.blockArgs (f : Function) (b : Nat) : List Nat :=
  match f.blocks[b]? with
  | some bd => bd.arguments
  | none => []

/-- The successor bit-set of a block (the `successors` field of `BlockData`). -/
def Function.blockSuccessors (f : Function) (b : Nat) : Finset Nat :=
  match f.blocks[b]? with
  | some bd => bd.successors
  | none => ∅

/-- The predecessor bit-set of a block (the `predecessors` field of
`BlockData`). -/
def Function.blockPredecessors (f : Function) (b : Nat) : Finset Nat :=
  match f.blocks[b]? with
  | some bd => bd.predecessors
  | none => ∅

/-- The targets of the block-kind values in a block's reads, in read order
and with multiplicity. -/
def Function.blockReadTargets (f : Function) (b : Nat) : List Nat :=
  (f.blockReads b).filterMap f.valueBlock

/-- One read-operand check of `Function::graph_validate_block`: a block-kind
read must point at a recorded successor whose predecessor set contains the
reading block; non-block reads pass. An out-of-range handle, which panics in
the source, is embedded as failure. -/
def Function.readEdgeOk (f : Function) (b : Nat) (bd : BlockData) (r : Nat) : Bool :=
  match f.valueKind r with
  | some (ValueType.block s) =>
    decide (s ∈ bd.successors) &&
      (match f.blocks[s]? with
       | some sd => decide (b ∈ sd.predecessors)
       | none => false)
  | some _ => true
  | none => false

/-- Embeds `Function::graph_validate_block`: every block-kind read is a
recorded edge in both directions, and the size of the successor set equals
the number of block-kind reads, counted exactly as the source counts them
(`num_successors` is incremented once per read occurrence). -/
def Function.graphValidateBlock (f : Function) (b : Nat) : Bool :=
  match f.blocks[b]? with
  | none => false
  | some bd =>
    bd.reads.all (fun r => f.readEdgeOk b bd r) &&
      decide (bd.successors.card = bd.reads.countP (fun r => (f.valueBlock r).isSome))

/-- Embeds `Function::graph_validate_global`: validate every block of the
function. -/
def Function.graphValidateGlobal (f : Function) : Bool :=
  (List.range f.blocks.length).all (fun b => f.graphValidateBlock b)

/-- Modelled from the spec: the iterator of the pooled bit-set
(`PooledEntitySet::iter` in `libeir_util`, whose source is not under
`src/`). A bit-set keyed by dense handles stores one bit per handle, so its
iterator scans the handle indices in increasing order and yields the set
members. -/
def bitSetIter (s : Finset Nat) : List Nat :=
  (List.range (s.sup id + 1)).filter (fun b => b ∈ s)

/-- Inserting a sequence of handles into an (initially empty) pooled
bit-set, in the given order. -/
def bitSetInsertAll (l : List Nat) : Finset Nat :=
  l.foldl (fun s b => insert b s) ∅

/-- Embeds successor iteration (`IntoNeighbors for BlockGraph`,
`BlockSuccessors`): the pooled-bit-set iterator over the block's successor
set. -/
def Function.succIter (f : Function) (b : Nat) : List Nat :=
  bitSetIter (f.blockSuccessors b)

/-- Embeds predecessor iteration (`BlockPredecessors`). -/
def Function.predIter (f : Function) (b : Nat) : List Nat :=
  bitSetIter (f.blockPredecessors b)

/-- The successor-edge relation of the block graph: y is a successor of x. -/
def Function.succEdge (f : Function) (x y : Nat) : Prop :=
  y ∈ f.blockSuccessors x

/-- Embeds petgraph's `Dfs` iterator as driven by `BlockGraph::dfs_iter`:
a stack of pending blocks and a visit map sized to the block pool (`n`).
Popping an undiscovered block marks it and pushes its unvisited successors
(in iterator order, so the last pushed is popped first); a block outside the
visit map's range is never marked. The result is the final visit map. -/
def dfsAux (succ : Nat → List Nat) (n : Nat) :
    List Nat → Finset Nat → Finset Nat
  | [], visited => visited
  | b :: stack, visited =>
    if h : b ∈ visited ∨ n ≤ b then
      dfsAux succ n stack visited
    else
      dfsAux succ n
        (((succ b).filter (fun s => s ∉ insert b visited)).reverse ++ stack)
        (insert b visited)
termination_by stack visited => ((Finset.range n \ visited).card, stack.length)
decreasing_by
  · exact Prod.Lex.right _ (Nat.lt_succ_self _)
  · apply Prod.Lex.left
    apply Finset.card_lt_card
    push_neg at h
    refine (Finset.ssubset_iff_of_subset
      (Finset.sdiff_subset_sdiff (Finset.Subset.refl _) (Finset.subset_insert _ _))).mpr
      ⟨b, ?_, ?_⟩
    · simp only [Finset.mem_sdiff, Finset.mem_range]
      exact ⟨by omega, h.1⟩
    · simp

/-- Embeds petgraph's `DfsPostOrder` iterator as driven by
`BlockGraph::dfs_post_order_iter`: a stack, a `discovered` map and a
`finished` map. Peeking an undiscovered block marks it discovered and pushes
its undiscovered successors above it; peeking a discovered block pops it and
marks it finished (the iterator emits it on the first finish). The result is
the final `finished` map. -/
def postAux (succ : Nat → List Nat) (n : Nat) :
    List Nat → Finset Nat → Finset Nat → Finset Nat
  | [], _, finished => finished
  | b :: stack, discovered, finished =>
    if hd : b ∈ discovered then
      postAux succ n stack discovered (insert b finished)
    else if h : n ≤ b then
      postAux succ n stack discovered finished
    else
      postAux succ n
        (((succ b).filter (fun s => s ∉ insert b discovered)).reverse ++ b :: stack)
        (insert b discovered) finished
termination_by stack discovered finished =>
  ((Finset.range n \ discovered).card, stack.length)
decreasing_by
  · exact Prod.Lex.right _ (Nat.lt_succ_self _)
  · exact Prod.Lex.right _ (Nat.lt_succ_self _)
  · apply Prod.Lex.left
    apply Finset.card_lt_card
    refine (Finset.ssubset_iff_of_subset
      (Finset.sdiff_subset_sdiff (Finset.Subset.refl _) (Finset.subset_insert _ _))).mpr
      ⟨b, ?_, ?_⟩
    · simp only [Finset.mem_sdiff, Finset.mem_range]
      exact ⟨by omega, hd⟩
    · simp

/-- Embeds `BlockGraph::dfs_iter` run to exhaustion from a given entry:
the set of blocks the DFS visits. -/
def Function.dfsVisited (f : Function) (entry : Nat) : Finset Nat :=
  dfsAux f.succIter f.blocks.length [entry] ∅

/-- Embeds `BlockGraph::dfs_post_order_iter` run to exhaustion from a given
entry: the set of blocks the post-order DFS visits. -/
def Function.dfsPostVisited (f : Function) (entry : Nat) : Finset Nat :=
  postAux f.succIter f.blocks.length [entry] ∅ ∅

/-- Whether a value kind is the `Alias` forwarding kind. -/
def isAliasKind : Option ValueType → Bool
  | some (ValueType.alias _) => true
  | _ => false

/-- Modelled from the spec: the alias check of the LIR validation pass
(`ir::lir::pass::validate`, whose source is not under `src/`). It walks the
blocks the DFS visits from the entry and rejects any value of kind `Alias`
occurring in a block's reads or arguments (a dangling value handle is also
rejected, per the validator's existence check). -/
def Function.validateNoAlias (f : Function) (entry : Nat) : Bool :=
  (bitSetIter (f.dfsVisited entry)).all (fun b =>
    ((f.blockReads b) ++ (f.blockArgs b)).all (fun v =>
      match f.valueKind v with
      | some (ValueType.alias _) => false
      | some _ => true
      | none => false))

end Eir

namespace Eir

/-- A function passing global graph validation whose block 0 has the same
block-kind read twice and one extra recorded successor: value 0 references
block 1, block 0 reads it twice with successor set containing blocks 1 and 2. -/
def cexDupReads : Function :=
  { ident := { module := "m", name := "f", arity := 0 }
    blocks :=
      [ { arguments := [], reads := [0, 0], predecessors := ∅,
          successors := insert 1 (insert 2 ∅) }
      , { arguments := [], reads := [], predecessors := insert 0 ∅,
          successors := ∅ }
      , { arguments := [], reads := [], predecessors := ∅, successors := ∅ } ]
    values := [ { kind := ValueType.block 1 } ]
    entryBlock := some 0 }

/-- A small well-formed function: block 0 reads value 0 (which references
block 1) and value 1 (a constant); block 1 has block 0 as predecessor. -/
def goodFun : Function :=
  { ident := { module := "m", name := "g", arity := 0 }
    blocks :=
      [ { arguments := [], reads := [0, 1], predecessors := ∅,
          successors := insert 1 ∅ }
      , { arguments := [2], reads := [], predecessors := insert 0 ∅,
          successors := ∅ } ]
    values :=
      [ { kind := ValueType.block 1 }
      , { kind := ValueType.constant 0 }
      , { kind := ValueType.arg 1 } ]
    entryBlock := some 0 }

/-- A function whose block-0 successor set was produced by inserting block 3
and then block 1 into the pooled bit-set, in that order. -/
def cexIterOrder : Function :=
  { ident := { module := "m", name := "h", arity := 0 }
    blocks :=
      [ { arguments := [], reads := [0, 1], predecessors := ∅,
          successors := bitSetInsertAll [3, 1] }
      , { arguments := [], reads := [], predecessors := insert 0 ∅,
          successors := ∅ }
      , { arguments := [], reads := [], predecessors := ∅, successors := ∅ }
      , { arguments := [], reads := [], predecessors := insert 0 ∅,
          successors := ∅ } ]
    values := [ { kind := ValueType.block 3 }, { kind := ValueType.block 1 } ]
    entryBlock := some 0 }

end Eir

namespace Pipeline

/-- Embeds the steps invoked inside the per-function loop of `from_parsed`
in `compiler/src/ir/mod.rs` (`ir::lir::pass::{propagate_atomics,
simplify_branches, promote_tail_calls, validate}`). -/
inductive LirPass where
  | propagateAtomics
  | simplifyBranches
  | promoteTailCalls
  | validate
deriving DecidableEq, Repr

/-- Embeds the per-function LIR pass sequence of `from_parsed`
(`compiler/src/ir/mod.rs`, the `STAGE: Functionwise` loop), in source
order. The source contains no conditional compilation: the same sequence
runs in debug and release builds. -/
def functionwisePasses : List LirPass :=
  [ LirPass.propagateAtomics
  , LirPass.simplifyBranches
  , LirPass.validate
  , LirPass.promoteTailCalls
  , LirPass.validate ]

/-- Whether every non-validation pass in the sequence is immediately
followed by a validation run (and the sequence does not end on an
unvalidated pass). -/
def eachPassRevalidated : List LirPass → Bool
  | [] => true
  | [p] => p = LirPass.validate
  | p :: q :: rest =>
    (p = LirPass.validate || q = LirPass.validate) && eachPassRevalidated (q :: rest)

/-- The optimization passes of a sequence, with validation runs removed. -/
def optPasses (l : List LirPass) : List LirPass :=
  l.filter (fun p => p ≠ LirPass.validate)

end Pipeline

namespace ErlPre

/-- Embeds `UnaryOp` of the Erlang surface AST, restricted to the four
operators `eval_unary_op` handles. -/
inductive UnaryOp where
  | plus
  | minus
  | bnot
  | notOp
deriving DecidableEq, Repr

/-- Embeds `Literal` of `libeir_syntax_erl`: integer, float and atom
literals with their node id and span. The arbitrary-precision `Integer` is
embedded as `Int` (the `Small`/`Big` split is not modelled); the `f64`
float payload is embedded as `ℚ`, which models negation and sign tests of
finite doubles exactly. -/
inductive Literal where
  | integer (id : Nat) (span : Nat) (i : Int)
  | float (id : Nat) (span : Nat) (f : ℚ)
  | atom (id : Nat) (name : String)
deriving DecidableEq, Repr

/-- Embeds the fragment of `Expr` that the unary-operator claims exercise:
literals and unary expressions. The remaining variants all reach
`eval_unary_op` only as its (rejected) catch-all case and are not modelled. -/
inductive Expr where
  | literal (l : Literal)
  | unaryExpr (span : Nat) (id : Nat) (op : UnaryOp) (operand : Expr)
deriving DecidableEq, Repr

/-- Embeds `PreprocessorError` as far as the evaluator produces it. -/
inductive PreprocessorError where
  | invalidConstExpression (span : Nat)
deriving DecidableEq, Repr

/-- Embeds `eval_unary_op` of
`libeir_syntax_erl/src/preprocessor/evaluator.rs`, arm for arm: unary plus
negates an integer or float literal only when it is strictly negative,
unary minus only when it is strictly positive; otherwise the literal is
returned unchanged. `bnot` on an integer is bitwise not; `not` flips the
atoms `true`/`false`; everything else is an invalid constant expression. -/
def eval_unary_op (span : Nat) (op : UnaryOp) (rhs : Expr) :
    Except PreprocessorError Expr :=
  match op with
  | UnaryOp.plus =>
    match rhs with
    | Expr.literal (Literal.integer id sp i) =>
      if i < 0 then Except.ok (Expr.literal (Literal.integer id sp (-i)))
      else Except.ok rhs
    | Expr.literal (Literal.float id sp x) =>
      if x < 0 then Except.ok (Expr.literal (Literal.float id sp (x * -1)))
      else Except.ok rhs
    | _ => Except.error (PreprocessorError.invalidConstExpression span)
  | UnaryOp.minus =>
    match rhs with
    | Expr.literal (Literal.integer id sp i) =>
      if i > 0 then Except.ok (Expr.literal (Literal.integer id sp (-i)))
      else Except.ok rhs
    | Expr.literal (Literal.float id sp x) =>
      if x > 0 then Except.ok (Expr.literal (Literal.float id sp (x * -1)))
      else Except.ok rhs
    | _ => Except.error (PreprocessorError.invalidConstExpression span)
  | UnaryOp.bnot =>
    match rhs with
    | Expr.literal (Literal.integer id sp i) =>
      Except.ok (Expr.literal (Literal.integer id sp (-(i + 1))))
    | _ => Except.error (PreprocessorError.invalidConstExpression span)
  | UnaryOp.notOp =>
    match rhs with
    | Expr.literal (Literal.atom id "true") =>
      Except.ok (Expr.literal (Literal.atom id "false"))
    | Expr.literal (Literal.atom id "false") =>
      Except.ok (Expr.literal (Literal.atom id "true"))
    | _ => Except.error (PreprocessorError.invalidConstExpression span)

/-- Embeds `eval` of the preprocessor evaluator on the modelled fragment:
literals evaluate to themselves; a unary expression evaluates its operand
and then applies `eval_unary_op`. -/
def eval : Expr → Except PreprocessorError Expr
  | Expr.literal l => Except.ok (Expr.literal l)
  | Expr.unaryExpr span _ op operand =>
    match eval operand with
    | Except.error e => Except.error e
    | Except.ok o => eval_unary_op span op o

end ErlPre

namespace Ssa

/-- Modelled from the spec: the surface-shaped HIR fragment that the SSA
assignment pass (`ir::hir::pass::ssa`, whose source is not under `src/`)
walks. Binding forms are let bindings, fun (closure) parameters, case-clause
patterns and receive patterns; a pattern is modelled as the list of variable
names it binds. `eqTest` is an explicit equality guard, the form the surface
language's match-against-bound-name desugars to upstream of this pass. -/
inductive SExpr where
  | var (name : String)
  | lit (n : Int)
  | eqTest (a b : SExpr)
  | letE (name : String) (val : SExpr) (body : SExpr)
  | lam (params : List String) (body : SExpr)
  | caseClause (scrut : SExpr) (pat : List String) (body : SExpr)
  | receiveE (pat : List String) (body : SExpr)
deriving DecidableEq, Repr

/-- The SSA-annotated output: every binder carries the dataflow identifier
the pass assigned to it, and every variable reference carries its
resolution (`none` marks a free variable, later recorded as a capture). -/
inductive AExpr where
  | var (name : String) (resolved : Option Nat)
  | lit (n : Int)
  | eqTest (a b : AExpr)
  | letE (name : String) (ssa : Nat) (val : AExpr) (body : AExpr)
  | lam (params : List (String × Nat)) (body : AExpr)
  | caseClause (scrut : AExpr) (pat : List (String × Nat)) (body : AExpr)
  | receiveE (pat : List (String × Nat)) (body : AExpr)
deriving DecidableEq, Repr

/-- Modelled from the spec: the scope tracker (`ScopeTracker`, whose source
is not under `src/`): a fresh-identifier counter and a stack of scope
frames, each mapping names to dataflow identifiers. -/
structure Tracker where
  counter : Nat
  scopes : List (List (String × Nat))
deriving DecidableEq, Repr

/-- Allocate a fresh dataflow identifier (`ScopeTracker::new_ssa`). -/
def Tracker.newSsa (t : Tracker) : Tracker × Nat :=
  ({ t with counter := t.counter + 1 }, t.counter)

/-- Resolve a name by searching the scope frames inside-out. -/
def resolveIn (name : String) : List (List (String × Nat)) → Option Nat
  | [] => none
  | frame :: rest =>
    match frame.lookup name with
    | some s => some s
    | none => resolveIn name rest

/-- Resolve a name against the whole scope stack. -/
def Tracker.resolve (t : Tracker) (name : String) : Option Nat :=
  resolveIn name t.scopes

/-- Push a scope frame (`ScopeTracker::push_scope`). -/
def Tracker.pushScope (t : Tracker) (frame : List (String × Nat)) : Tracker :=
  { t with scopes := frame :: t.scopes }

/-- Pop the innermost scope frame (`ScopeTracker::pop_scope`). -/
def Tracker.popScope (t : Tracker) : Tracker :=
  { t with scopes := t.scopes.tail }

/-- Bind a list of pattern variables: each gets a fresh identifier,
in order. Returns the new tracker and the annotated binder list. -/
def bindAll (t : Tracker) (names : List String) : Tracker × List (String × Nat) :=
  match names with
  | [] => (t, [])
  | n :: rest =>
    let (t1, s) := t.newSsa
    let (t2, tail) := bindAll t1 rest
    (t2, (n, s) :: tail)

/-- Modelled from the spec: the SSA assignment pass
(`assign_ssa_single_expression`, whose source is not under `src/`). A binder
allocates a fresh identifier and installs it in a new innermost frame
(shadowing any outer binding of the same name); the body is walked under
that frame, which is popped on exit. A variable reference resolves
inside-out. The pass never synthesizes an equality test: `eqTest` nodes in
the output are exactly those of the input. -/
def assign : Tracker → SExpr → Tracker × AExpr
  | t, SExpr.var n => (t, AExpr.var n (t.resolve n))
  | t, SExpr.lit n => (t, AExpr.lit n)
  | t, SExpr.eqTest a b =>
    let (t1, a') := assign t a
    let (t2, b') := assign t1 b
    (t2, AExpr.eqTest a' b')
  | t, SExpr.letE n v body =>
    let (t1, v') := assign t v
    let (t2, s) := t1.newSsa
    let t3 := t2.pushScope [(n, s)]
    let (t4, body') := assign t3 body
    (t4.popScope, AExpr.letE n s v' body')
  | t, SExpr.lam ps body =>
    let (t1, bound) := bindAll t ps
    let t2 := t1.pushScope bound
    let (t3, body') := assign t2 body
    (t3.popScope, AExpr.lam bound body')
  | t, SExpr.caseClause scrut pat body =>
    let (t1, scrut') := assign t scrut
    let (t2, bound) := bindAll t1 pat
    let t3 := t2.pushScope bound
    let (t4, body') := assign t3 body
    (t4.popScope, AExpr.caseClause scrut' bound body')
  | t, SExpr.receiveE pat body =>
    let (t1, bound) := bindAll t pat
    let t2 := t1.pushScope bound
    let (t3, body') := assign t2 body
    (t3.popScope, AExpr.receiveE bound body')

/-- Number of equality-test nodes in a surface expression. -/
def eqCountS : SExpr → Nat
  | SExpr.var _ => 0
  | SExpr.lit _ => 0
  | SExpr.eqTest a b => 1 + eqCountS a + eqCountS b
  | SExpr.letE _ v body => eqCountS v + eqCountS body
  | SExpr.lam _ body => eqCountS body
  | SExpr.caseClause s _ body => eqCountS s + eqCountS body
  | SExpr.receiveE _ body => eqCountS body

/-- Number of equality-test nodes in an annotated expression. -/
def eqCountA : AExpr → Nat
  | AExpr.var _ _ => 0
  | AExpr.lit _ => 0
  | AExpr.eqTest a b => 1 + eqCountA a + eqCountA b
  | AExpr.letE _ _ v body => eqCountA v + eqCountA body
  | AExpr.lam _ body => eqCountA body
  | AExpr.caseClause s _ body => eqCountA s + eqCountA body
  | AExpr.receiveE _ body => eqCountA body

/-- All dataflow identifiers assigned to binders (pattern variables, fun
parameters, let bindings, receive patterns) in an annotated expression. -/
def binderSsas : AExpr → List Nat
  | AExpr.var _ _ => []
  | AExpr.lit _ => []
  | AExpr.eqTest a b => binderSsas a ++ binderSsas b
  | AExpr.letE _ s v body => s :: (binderSsas v ++ binderSsas body)
  | AExpr.lam ps body => ps.map Prod.snd ++ binderSsas body
  | AExpr.caseClause s pat body =>
    binderSsas s ++ pat.map Prod.snd ++ binderSsas body
  | AExpr.receiveE pat body => pat.map Prod.snd ++ binderSsas body

/-- All identifiers currently installed in the tracker's scope frames. -/
def scopeSsas (t : Tracker) : List Nat :=
  (t.scopes.flatten).map Prod.snd

/-- Tracker well-formedness: every installed identifier was issued by the
counter, i.e. is below it. -/
def TrackerWf (t : Tracker) : Prop :=
  ∀ s ∈ scopeSsas t, s < t.counter

end Ssa

namespace Lam

/-- Modelled from the spec: the HIR fragment that lambda extraction
(`ir::hir::pass::extract_lambda`, whose source is not under `src/`) walks.
`closure` is a closure literal carrying the capture list recorded during
SSA assignment; `makeClosure` is the lowered make-closure form referencing
a lambda environment and a lifted function. -/
inductive HExpr where
  | var (ssa : Nat)
  | lit (n : Int)
  | closure (captures : List Nat) (params : Nat) (body : HExpr)
  | makeClosure (envIdx : Nat) (funIdx : Nat) (captures : List Nat)
  | app (fn : HExpr) (arg : HExpr)
  | letE (bind : Nat) (val : HExpr) (body : HExpr)
deriving DecidableEq, Repr

/-- A lambda environment: the captured dataflow identifiers of one closure
creation site. -/
structure LambdaEnv where
  captures : List Nat
deriving DecidableEq, Repr

/-- A module-level HIR function definition. A lifted lambda records the
environment index it was created from. -/
structure HFun where
  name : String
  arity : Nat
  body : HExpr
  lambda : Option (Nat × Nat)
deriving DecidableEq, Repr

/-- A module before/after lambda extraction: named functions and, once
extraction has run, the recorded lambda environments. -/
structure HModule where
  name : String
  functions : List HFun
  lambdaEnvs : Option (List LambdaEnv)
deriving DecidableEq, Repr

/-- The collector threaded through extraction (`LambdaCollector`): the
lifted functions and the lambda environments gathered so far. -/
structure Collector where
  funs : List HFun
  envs : List LambdaEnv
deriving DecidableEq, Repr

/-- Number of closure creation sites in an expression, nested ones
included. -/
def countClosures : HExpr → Nat
  | HExpr.var _ => 0
  | HExpr.lit _ => 0
  | HExpr.closure _ _ body => 1 + countClosures body
  | HExpr.makeClosure _ _ _ => 0
  | HExpr.app f a => countClosures f + countClosures a
  | HExpr.letE _ v body => countClosures v + countClosures body

/-- Whether an expression still contains a closure literal. -/
def hasClosure : HExpr → Bool
  | HExpr.var _ => false
  | HExpr.lit _ => false
  | HExpr.closure _ _ _ => true
  | HExpr.makeClosure _ _ _ => false
  | HExpr.app f a => hasClosure f || hasClosure a
  | HExpr.letE _ v body => hasClosure v || hasClosure body

/-- Modelled from the spec: the expression walk of lambda extraction. Each
closure literal is processed innermost-first: its body is extracted, a new
lambda environment is recorded for the site's captures, a lifted top-level
function is appended to the collector, and the literal is rewritten to
`makeClosure(env-idx, fun-idx, captures)`. -/
def extractExpr (host : String) (c : Collector) : HExpr → HExpr × Collector
  | HExpr.var s => (HExpr.var s, c)
  | HExpr.lit n => (HExpr.lit n, c)
  | HExpr.closure caps params body =>
    let (body', c1) := extractExpr host c body
    let envIdx := c1.envs.length
    let funIdx := c1.funs.length
    ( HExpr.makeClosure envIdx funIdx caps
    , { funs := c1.funs ++
          [ { name := host, arity := caps.length + params, body := body'
            , lambda := some (envIdx, funIdx) } ]
      , envs := c1.envs ++ [ { captures := caps } ] } )
  | HExpr.makeClosure e fi caps => (HExpr.makeClosure e fi caps, c)
  | HExpr.app f a =>
    let (f', c1) := extractExpr host c f
    let (a', c2) := extractExpr host c1 a
    (HExpr.app f' a', c2)
  | HExpr.letE b v body =>
    let (v', c1) := extractExpr host c v
    let (body', c2) := extractExpr host c1 body
    (HExpr.letE b v' body', c2)

/-- Extraction over the module's function list, threading one collector
(`from_parsed` runs `extract_lambdas` on every function with a shared
`LambdaCollector`). -/
def extractFuns (c : Collector) : List HFun → List HFun × Collector
  | [] => ([], c)
  | f :: rest =>
    let (body', c1) := extractExpr f.name c f.body
    let (rest', c2) := extractFuns c1 rest
    ({ f with body := body' } :: rest', c2)

/-- Modelled from the spec: lambda extraction over a whole module. The
lifted functions are appended to the module's function list
(`module.functions.extend(lambdas.drain(0..))`) and the lambda
environments are recorded on the module
(`module.lambda_envs = Some(env.finish())`). -/
def extractModule (m : HModule) : HModule :=
  let (hosts, c) := extractFuns { funs := [], envs := [] } m.functions
  { m with functions := hosts ++ c.funs, lambdaEnvs := some c.envs }

end Lam

/-- The pooled-bit-set iterator yields its elements in increasing handle
order. -/
theorem bitSetIter_sorted (s : Finset Nat) :
    (Eir.bitSetIter s).Sorted (fun a c => a ≤ c) := by
  unfold Eir.bitSetIter
  exact (((List.pairwise_lt_range _).sublist (List.filter_sublist _)).imp le_of_lt)

/-- Membership in the pooled-bit-set iterator is membership in the set. -/
theorem bitSetIter_mem (s : Finset Nat) (x : Nat) :
    x ∈ Eir.bitSetIter s ↔ x ∈ s := by
  unfold Eir.bitSetIter
  rw [List.mem_filter]
  constructor
  · rintro ⟨_, h⟩
    exact of_decide_eq_true h
  · intro h
    refine ⟨?_, decide_eq_true h⟩
    rw [List.mem_range]
    exact Nat.lt_succ_of_le (@Finset.le_sup ℕ ℕ _ _ s id x h)

/-- Membership in a pooled bit-set built by a sequence of insertions is
membership in the inserted sequence. -/
theorem bitSetInsertAll_fold_mem (x : Nat) :
    ∀ (l : List Nat) (acc : Finset Nat),
      (x ∈ l.foldl (fun s b => insert b s) acc) ↔ (x ∈ acc ∨ x ∈ l) := by
  intro l
  induction l with
  | nil => intro acc; simp
  | cons b rest ih =>
    intro acc
    simp only [List.foldl_cons, ih, Finset.mem_insert, List.mem_cons]
    tauto

/-- C9: the entry operation is partial. After `set_entry`, `block_entry`
returns the most recently set block; on a freshly constructed function the
stored entry `Option` is `none`, so the `unwrap` in `block_entry` panics
(embedded as `none`). -/
theorem claim_C9 :
    (∀ (f : Eir.Function) (b : Nat), (f.setEntry b).blockEntry = some b) ∧
    (∀ (f : Eir.Function) (b₁ b₂ : Nat),
      ((f.setEntry b₁).setEntry b₂).blockEntry = some b₂) ∧
    (∀ ident, (Eir.Function.new ident).blockEntry = none) :=
  ⟨fun _ _ => rfl, fun _ _ _ => rfl, fun _ => rfl⟩

/-- C10: the preprocessor's unary minus negates an integer or float literal
only when it is strictly positive, unary plus only when it is strictly
negative; hence `-x` leaves every non-positive integer literal unchanged,
`eval(-(-1))` yields `-1`, and `+x` negates every negative literal. -/
theorem claim_C10 :
    (∀ (s id sp : Nat) (i : Int),
      ErlPre.eval_unary_op s ErlPre.UnaryOp.minus
          (ErlPre.Expr.literal (ErlPre.Literal.integer id sp i)) =
        Except.ok (ErlPre.Expr.literal
          (ErlPre.Literal.integer id sp (if i > 0 then -i else i)))) ∧
    (∀ (s id sp : Nat) (x : ℚ),
      ErlPre.eval_unary_op s ErlPre.UnaryOp.minus
          (ErlPre.Expr.literal (ErlPre.Literal.float id sp x)) =
        Except.ok (ErlPre.Expr.literal
          (ErlPre.Literal.float id sp (if x > 0 then x * -1 else x)))) ∧
    (∀ (s id sp : Nat) (i : Int),
      ErlPre.eval_unary_op s ErlPre.UnaryOp.plus
          (ErlPre.Expr.literal (ErlPre.Literal.integer id sp i)) =
        Except.ok (ErlPre.Expr.literal
          (ErlPre.Literal.integer id sp (if i < 0 then -i else i)))) ∧
    (∀ (s id sp : Nat) (x : ℚ),
      ErlPre.eval_unary_op s ErlPre.UnaryOp.plus
          (ErlPre.Expr.literal (ErlPre.Literal.float id sp x)) =
        Except.ok (ErlPre.Expr.literal
          (ErlPre.Literal.float id sp (if x < 0 then x * -1 else x)))) ∧
    (ErlPre.eval (ErlPre.Expr.unaryExpr 0 0 ErlPre.UnaryOp.minus
        (ErlPre.Expr.unaryExpr 0 0 ErlPre.UnaryOp.minus
          (ErlPre.Expr.literal (ErlPre.Literal.integer 5 7 1)))) =
      Except.ok (ErlPre.Expr.literal (ErlPre.Literal.integer 5 7 (-1)))) := by
  refine ⟨?_, ?_, ?_, ?_, ?_⟩
  · intro s id sp i
    by_cases h : i > 0 <;> simp [ErlPre.eval_unary_op, h]
  · intro s id sp x
    by_cases h : x > 0 <;> simp [ErlPre.eval_unary_op, h]
  · intro s id sp i
    by_cases h : i < 0 <;> simp [ErlPre.eval_unary_op, h]
  · intro s id sp x
    by_cases h : x < 0 <;> simp [ErlPre.eval_unary_op, h]
  · rfl

/-- C8 counterexample: in the per-function LIR pipeline, atomic propagation
is immediately followed by branch simplification, not by a validation run,
so it is false that every pass is followed by re-validation (in any build;
the source contains no debug/release conditional around validation). -/
theorem claim_C8_counterexample :
    Pipeline.eachPassRevalidated Pipeline.functionwisePasses = false ∧
    Pipeline.functionwisePasses[0]? = some Pipeline.LirPass.propagateAtomics ∧
    Pipeline.functionwisePasses[1]? = some Pipeline.LirPass.simplifyBranches := by
  decide

/-- C8 amended: the per-function LIR pipeline runs atomic propagation,
branch simplification and tail-call promotion in that order, with a
validation run after branch simplification and after tail-call promotion
(unconditionally, in every build); atomic propagation is not directly
followed by validation. -/
theorem claim_C8_amended :
    Pipeline.optPasses Pipeline.functionwisePasses =
      [ Pipeline.LirPass.propagateAtomics
      , Pipeline.LirPass.simplifyBranches
      , Pipeline.LirPass.promoteTailCalls ] ∧
    Pipeline.functionwisePasses[2]? = some Pipeline.LirPass.validate ∧
    Pipeline.functionwisePasses[4]? = some Pipeline.LirPass.validate ∧
    Pipeline.functionwisePasses[1]? ≠ some Pipeline.LirPass.validate ∧
    Pipeline.functionwisePasses.length = 5 := by
  decide

/-- C1 counterexample: a function on which `graph_validate_global` succeeds
whose block 0 has successor-set size 2 while only one distinct block target
appears among its reads (the same block-kind value is read twice), so the
size does not equal the duplicate-collapsed count. -/
theorem claim_C1_counterexample :
    Eir.cexDupReads.graphValidateGlobal = true ∧
    (Eir.cexDupReads.blockSuccessors 0).card ≠
      (Eir.cexDupReads.blockReadTargets 0).toFinset.card := by
  decide

/-- C1 amended: for every block passing `graph_validate_block`, the size of
its successor set equals the number of block-kind values among its reads
counted with multiplicity (each duplicate occurrence counted separately),
exactly as the validator's `num_successors` counts them. -/
theorem claim_C1_amended (f : Eir.Function) (b : Nat)
    (h : f.graphValidateBlock b = true) :
    (f.blockSuccessors b).card =
      (f.blockReads b).countP (fun r => (f.valueBlock r).isSome) := by
  unfold Eir.Function.graphValidateBlock at h
  unfold Eir.Function.blockSuccessors Eir.Function.blockReads
  cases hb : f.blocks[b]? with
  | none => rw [hb] at h; exact absurd h (by simp)
  | some bd =>
    rw [hb] at h
    rw [Bool.and_eq_true] at h
    exact of_decide_eq_true h.2

/-- Witness for the amended C1 at a concrete validated block. -/
theorem claim_C1_witness :
    Eir.goodFun.graphValidateBlock 0 = true ∧
    (Eir.goodFun.blockSuccessors 0).card =
      (Eir.goodFun.blockReads 0).countP (fun r => (Eir.goodFun.valueBlock r).isSome) :=
  ⟨by decide, claim_C1_amended Eir.goodFun 0 (by decide)⟩

/-- C2: in a block passing `graph_validate_block`, every read of block kind
`Block(S)` has S in the block's successor set and the block in S's
predecessor set. -/
theorem claim_C2 (f : Eir.Function) (b r s : Nat)
    (h : f.graphValidateBlock b = true)
    (hr : r ∈ f.blockReads b)
    (hk : f.valueKind r = some (Eir.ValueType.block s)) :
    s ∈ f.blockSuccessors b ∧ b ∈ f.blockPredecessors s := by
  unfold Eir.Function.graphValidateBlock at h
  unfold Eir.Function.blockReads at hr
  cases hb : f.blocks[b]? with
  | none => rw [hb] at hr; exact absurd hr (by simp)
  | some bd =>
    rw [hb] at h hr
    rw [Bool.and_eq_true] at h
    have hedge := List.all_eq_true.mp h.1 r hr
    unfold Eir.Function.readEdgeOk at hedge
    rw [hk] at hedge
    rw [Bool.and_eq_true] at hedge
    obtain ⟨hs, hp⟩ := hedge
    constructor
    · unfold Eir.Function.blockSuccessors
      rw [hb]
      exact of_decide_eq_true hs
    · unfold Eir.Function.blockPredecessors
      cases hsb : f.blocks[s]? with
      | none => rw [hsb] at hp; exact absurd hp (by simp)
      | some sd => rw [hsb] at hp; exact of_decide_eq_true hp

/-- Witness for C2 at a concrete validated block and read. -/
theorem claim_C2_witness :
    Eir.goodFun.graphValidateBlock 0 = true ∧
    0 ∈ Eir.goodFun.blockReads 0 ∧
    Eir.goodFun.valueKind 0 = some (Eir.ValueType.block 1) ∧
    (1 ∈ Eir.goodFun.blockSuccessors 0 ∧ 0 ∈ Eir.goodFun.blockPredecessors 1) :=
  ⟨by decide, by decide, by decide,
    claim_C2 Eir.goodFun 0 0 1 (by decide) (by decide) (by decide)⟩

/-- C6 counterexample: a successor set into which block 3 was inserted
before block 1 iterates as [1, 3], not in insertion order [3, 1]: the
pooled bit-set iterates in increasing handle order regardless of insertion
order. -/
theorem claim_C6_counterexample :
    Eir.cexIterOrder.blockSuccessors 0 = Eir.bitSetInsertAll [3, 1] ∧
    Eir.cexIterOrder.succIter 0 ≠ [3, 1] ∧
    Eir.cexIterOrder.succIter 0 = [1, 3] := by
  decide

/-- C6 amended: successor and predecessor iteration is deterministic and
yields the member blocks in increasing handle order; the iteration of a
pooled bit-set depends only on the set of inserted handles, not on the
order in which they were inserted. -/
theorem claim_C6_amended (f : Eir.Function) (b : Nat) :
    (f.succIter b).Sorted (fun a c => a ≤ c) ∧
    (∀ s, s ∈ f.succIter b ↔ s ∈ f.blockSuccessors b) ∧
    (f.predIter b).Sorted (fun a c => a ≤ c) ∧
    (∀ p, p ∈ f.predIter b ↔ p ∈ f.blockPredecessors b) ∧
    (∀ l₁ l₂ : List Nat, (∀ x, x ∈ l₁ ↔ x ∈ l₂) →
      Eir.bitSetIter (Eir.bitSetInsertAll l₁) =
        Eir.bitSetIter (Eir.bitSetInsertAll l₂)) := by
  refine ⟨bitSetIter_sorted _, fun s => bitSetIter_mem _ s,
    bitSetIter_sorted _, fun p => bitSetIter_mem _ p, ?_⟩
  intro l₁ l₂ hmem
  have : Eir.bitSetInsertAll l₁ = Eir.bitSetInsertAll l₂ := by
    apply Finset.ext
    intro x
    unfold Eir.bitSetInsertAll
    rw [bitSetInsertAll_fold_mem, bitSetInsertAll_fold_mem]
    simp [hmem x]
  rw [this]

/-- Witness for the amended C6 at a concrete block and insertion orders. -/
theorem claim_C6_witness :
    (Eir.cexIterOrder.succIter 0).Sorted (fun a c => a ≤ c) ∧
    (3 ∈ Eir.cexIterOrder.succIter 0 ↔ 3 ∈ Eir.cexIterOrder.blockSuccessors 0) ∧
    Eir.bitSetIter (Eir.bitSetInsertAll [3, 1]) =
      Eir.bitSetIter (Eir.bitSetInsertAll [1, 3]) := by
  have h := claim_C6_amended Eir.cexIterOrder 0
  exact ⟨h.1, h.2.1 3, h.2.2.2.2 [3, 1] [1, 3] (by intro x; simp; tauto)⟩

/-- The DFS visit map only grows. -/
theorem dfsAux_subset (succ : Nat → List Nat) (n : Nat) :
    ∀ (stack : List Nat) (visited : Finset Nat),
      visited ⊆ Eir.dfsAux succ n stack visited := by
  intro stack visited
  induction stack, visited using Eir.dfsAux.induct succ n with
  | case1 visited =>
    rw [Eir.dfsAux]
  | case2 b stack visited h ih =>
    rw [Eir.dfsAux, dif_pos h]
    exact ih
  | case3 b stack visited h ih =>
    rw [Eir.dfsAux, dif_neg h]
    exact subset_trans (Finset.subset_insert b visited) ih

/-- Every pending block within the visit map's range ends up visited. -/
theorem dfsAux_stack_mem (succ : Nat → List Nat) (n : Nat) :
    ∀ (stack : List Nat) (visited : Finset Nat) (x : Nat),
      x ∈ stack → x < n → x ∈ Eir.dfsAux succ n stack visited := by
  intro stack visited
  induction stack, visited using Eir.dfsAux.induct succ n with
  | case1 visited =>
    intro x hx _
    simp at hx
  | case2 b stack visited h ih =>
    intro x hx hlt
    rw [Eir.dfsAux, dif_pos h]
    rcases List.mem_cons.mp hx with rfl | hx'
    · rcases h with hv | hn
      · exact dfsAux_subset succ n stack visited hv
      · omega
    · exact ih x hx' hlt
  | case3 b stack visited h ih =>
    intro x hx hlt
    rw [Eir.dfsAux, dif_neg h]
    rcases List.mem_cons.mp hx with rfl | hx'
    · exact dfsAux_subset succ n _ _ (Finset.mem_insert_self x visited)
    · exact ih x (List.mem_append_right _ hx') hlt

/-- DFS soundness: every visited block satisfies any property that holds on
the initial stack and visit map and is closed under successor edges. -/
theorem dfsAux_sound (succ : Nat → List Nat) (n : Nat) (R : Nat → Prop)
    (hR : ∀ x y, R x → y ∈ succ x → R y) :
    ∀ (stack : List Nat) (visited : Finset Nat),
      (∀ x ∈ stack, R x) → (∀ x ∈ visited, R x) →
      ∀ x ∈ Eir.dfsAux succ n stack visited, R x := by
  intro stack visited
  induction stack, visited using Eir.dfsAux.induct succ n with
  | case1 visited =>
    intro _ hv x hx
    rw [Eir.dfsAux] at hx
    exact hv x hx
  | case2 b stack visited h ih =>
    intro hst hv x hx
    rw [Eir.dfsAux, dif_pos h] at hx
    exact ih (fun y hy => hst y (List.mem_cons_of_mem b hy)) hv x hx
  | case3 b stack visited h ih =>
    intro hst hv x hx
    rw [Eir.dfsAux, dif_neg h] at hx
    refine ih ?_ ?_ x hx
    · intro y hy
      rcases List.mem_append.mp hy with hy1 | hy2
      · have hmf := List.mem_reverse.mp hy1
        have hyb : y ∈ succ b := (List.mem_filter.mp hmf).1
        exact hR b y (hst b (List.mem_cons_self b stack)) hyb
      · exact hst y (List.mem_cons_of_mem b hy2)
    · intro y hy
      rcases Finset.mem_insert.mp hy with rfl | hy'
      · exact hst y (List.mem_cons_self y stack)
      · exact hv y hy'

/-- DFS completeness invariant: if every already-visited block has each of
its in-range successors visited or pending, the final visit map is closed
under in-range successor edges. -/
theorem dfsAux_closed (succ : Nat → List Nat) (n : Nat) :
    ∀ (stack : List Nat) (visited : Finset Nat),
      (∀ v ∈ visited, ∀ s ∈ succ v, s < n → s ∈ visited ∨ s ∈ stack) →
      ∀ v ∈ Eir.dfsAux succ n stack visited, ∀ s ∈ succ v, s < n →
        s ∈ Eir.dfsAux succ n stack visited := by
  intro stack visited
  induction stack, visited using Eir.dfsAux.induct succ n with
  | case1 visited =>
    intro hinv v hv s hs hlt
    rw [Eir.dfsAux] at hv ⊢
    rcases hinv v hv s hs hlt with h | h
    · exact h
    · simp at h
  | case2 b stack visited h ih =>
    intro hinv v hv s hs hlt
    rw [Eir.dfsAux, dif_pos h] at hv ⊢
    refine ih ?_ v hv s hs hlt
    intro v' hv' s' hs' hlt'
    rcases hinv v' hv' s' hs' hlt' with h1 | h1
    · exact Or.inl h1
    · rcases List.mem_cons.mp h1 with rfl | h2
      · rcases h with hb | hb
        · exact Or.inl hb
        · omega
      · exact Or.inr h2
  | case3 b stack visited h ih =>
    intro hinv v hv s hs hlt
    rw [Eir.dfsAux, dif_neg h] at hv ⊢
    refine ih ?_ v hv s hs hlt
    intro v' hv' s' hs' hlt'
    rcases Finset.mem_insert.mp hv' with rfl | hv2
    · by_cases hsv : s' ∈ insert v' visited
      · exact Or.inl hsv
      · refine Or.inr (List.mem_append_left _ ?_)
        rw [List.mem_reverse]
        exact List.mem_filter.mpr ⟨hs', by simpa using hsv⟩
    · rcases hinv v' hv2 s' hs' hlt' with h1 | h1
      · exact Or.inl (Finset.mem_insert_of_mem h1)
      · rcases List.mem_cons.mp h1 with rfl | h2
        · exact Or.inl (Finset.mem_insert_self _ _)
        · exact Or.inr (List.mem_append_right _ h2)

/-- Characterization of the DFS iterator: on a graph whose successor lists
stay within the block pool's range, DFS from an in-range entry visits a
block exactly when it is reachable from the entry through successor edges. -/
theorem dfsAux_spec (succ : Nat → List Nat) (n e : Nat)
    (hclosed : ∀ b s, s ∈ succ b → s < n) (he : e < n) :
    ∀ b, b ∈ Eir.dfsAux succ n [e] ∅ ↔
      Relation.ReflTransGen (fun x y => y ∈ succ x) e b := by
  intro b
  constructor
  · intro hb
    refine dfsAux_sound succ n (Relation.ReflTransGen (fun x y => y ∈ succ x) e)
      (fun x y hx hy => Relation.ReflTransGen.tail hx hy) [e] ∅ ?_ ?_ b hb
    · intro x hx
      have : x = e := by simpa using hx
      subst this
      exact Relation.ReflTransGen.refl
    · intro x hx
      simp at hx
  · intro hreach
    induction hreach with
    | refl => exact dfsAux_stack_mem succ n [e] ∅ e (by simp) he
    | tail hxy hedge ih =>
      exact dfsAux_closed succ n [e] ∅ (by intro v hv; simp at hv)
        _ ih _ hedge (hclosed _ _ hedge)

/-- The post-order finished map only grows. -/
theorem postAux_fin_subset (succ : Nat → List Nat) (n : Nat) :
    ∀ (stack : List Nat) (discovered finished : Finset Nat),
      finished ⊆ Eir.postAux succ n stack discovered finished := by
  intro stack discovered finished
  induction stack, discovered, finished using Eir.postAux.induct succ n with
  | case1 discovered finished =>
    rw [Eir.postAux]
  | case2 b stack discovered finished hd ih =>
    rw [Eir.postAux, dif_pos hd]
    exact subset_trans (Finset.subset_insert b finished) ih
  | case3 b stack discovered finished hd h ih =>
    rw [Eir.postAux, dif_neg hd, dif_pos h]
    exact ih
  | case4 b stack discovered finished hd h ih =>
    rw [Eir.postAux, dif_neg hd, dif_neg h]
    exact ih

/-- Every pending block within range ends up finished in the post-order
traversal. -/
theorem postAux_stack_mem (succ : Nat → List Nat) (n : Nat) :
    ∀ (stack : List Nat) (discovered finished : Finset Nat) (x : Nat),
      x ∈ stack → x < n → x ∈ Eir.postAux succ n stack discovered finished := by
  intro stack discovered finished
  induction stack, discovered, finished using Eir.postAux.induct succ n with
  | case1 discovered finished =>
    intro x hx _
    simp at hx
  | case2 b stack discovered finished hd ih =>
    intro x hx hlt
    rw [Eir.postAux, dif_pos hd]
    rcases List.mem_cons.mp hx with rfl | hx'
    · exact postAux_fin_subset succ n _ _ _ (Finset.mem_insert_self x finished)
    · exact ih x hx' hlt
  | case3 b stack discovered finished hd h ih =>
    intro x hx hlt
    rw [Eir.postAux, dif_neg hd, dif_pos h]
    rcases List.mem_cons.mp hx with rfl | hx'
    · omega
    · exact ih x hx' hlt
  | case4 b stack discovered finished hd h ih =>
    intro x hx hlt
    rw [Eir.postAux, dif_neg hd, dif_neg h]
    exact ih x (List.mem_append_right _ hx) hlt

/-- Post-order soundness: every finished block satisfies any property that
holds on the initial stack and maps and is closed under successor edges. -/
theorem postAux_sound (succ : Nat → List Nat) (n : Nat) (R : Nat → Prop)
    (hR : ∀ x y, R x → y ∈ succ x → R y) :
    ∀ (stack : List Nat) (discovered finished : Finset Nat),
      (∀ x ∈ stack, R x) → (∀ x ∈ discovered, R x) → (∀ x ∈ finished, R x) →
      ∀ x ∈ Eir.postAux succ n stack discovered finished, R x := by
  intro stack discovered finished
  induction stack, discovered, finished using Eir.postAux.induct succ n with
  | case1 discovered finished =>
    intro _ _ hf x hx
    rw [Eir.postAux] at hx
    exact hf x hx
  | case2 b stack discovered finished hd ih =>
    intro hst hdisc hf x hx
    rw [Eir.postAux, dif_pos hd] at hx
    refine ih (fun y hy => hst y (List.mem_cons_of_mem b hy)) hdisc ?_ x hx
    intro y hy
    rcases Finset.mem_insert.mp hy with rfl | hy'
    · exact hst y (List.mem_cons_self y stack)
    · exact hf y hy'
  | case3 b stack discovered finished hd h ih =>
    intro hst hdisc hf x hx
    rw [Eir.postAux, dif_neg hd, dif_pos h] at hx
    exact ih (fun y hy => hst y (List.mem_cons_of_mem b hy)) hdisc hf x hx
  | case4 b stack discovered finished hd h ih =>
    intro hst hdisc hf x hx
    rw [Eir.postAux, dif_neg hd, dif_neg h] at hx
    refine ih ?_ ?_ hf x hx
    · intro y hy
      rcases List.mem_append.mp hy with hy1 | hy2
      · have hmf := List.mem_reverse.mp hy1
        have hyb : y ∈ succ b := (List.mem_filter.mp hmf).1
        exact hR b y (hst b (List.mem_cons_self b stack)) hyb
      · exact hst y hy2
    · intro y hy
      rcases Finset.mem_insert.mp hy with rfl | hy'
      · exact hst y (List.mem_cons_self y stack)
      · exact hdisc y hy'

/-- Post-order completeness: under the machine's invariants (each
discovered block's in-range successors are discovered or pending, each
discovered block is finished or pending, and finished blocks are
discovered), the final finished map is closed under in-range successor
edges. -/
theorem postAux_closed (succ : Nat → List Nat) (n : Nat) :
    ∀ (stack : List Nat) (discovered finished : Finset Nat),
      (∀ v ∈ discovered, ∀ s ∈ succ v, s < n → s ∈ discovered ∨ s ∈ stack) →
      (∀ v ∈ discovered, v ∈ finished ∨ v ∈ stack) →
      finished ⊆ discovered →
      ∀ v ∈ Eir.postAux succ n stack discovered finished, ∀ s ∈ succ v,
        s < n → s ∈ Eir.postAux succ n stack discovered finished := by
  intro stack discovered finished
  induction stack, discovered, finished using Eir.postAux.induct succ n with
  | case1 discovered finished =>
    intro hP hQ hRsub v hv s hs hlt
    rw [Eir.postAux] at hv ⊢
    have hvd : v ∈ discovered := hRsub hv
    have hsd : s ∈ discovered := by
      rcases hP v hvd s hs hlt with h1 | h1
      · exact h1
      · simp at h1
    rcases hQ s hsd with h2 | h2
    · exact h2
    · simp at h2
  | case2 b stack discovered finished hd ih =>
    intro hP hQ hRsub v hv s hs hlt
    rw [Eir.postAux, dif_pos hd] at hv ⊢
    refine ih ?_ ?_ ?_ v hv s hs hlt
    · intro v' hv' s' hs' hlt'
      rcases hP v' hv' s' hs' hlt' with h1 | h1
      · exact Or.inl h1
      · rcases List.mem_cons.mp h1 with rfl | h2
        · exact Or.inl hd
        · exact Or.inr h2
    · intro v' hv'
      rcases hQ v' hv' with h1 | h1
      · exact Or.inl (Finset.mem_insert_of_mem h1)
      · rcases List.mem_cons.mp h1 with rfl | h2
        · exact Or.inl (Finset.mem_insert_self _ _)
        · exact Or.inr h2
    · intro x hx
      rcases Finset.mem_insert.mp hx with rfl | hx'
      · exact hd
      · exact hRsub hx'
  | case3 b stack discovered finished hd h ih =>
    intro hP hQ hRsub v hv s hs hlt
    rw [Eir.postAux, dif_neg hd, dif_pos h] at hv ⊢
    refine ih ?_ ?_ hRsub v hv s hs hlt
    · intro v' hv' s' hs' hlt'
      rcases hP v' hv' s' hs' hlt' with h1 | h1
      · exact Or.inl h1
      · rcases List.mem_cons.mp h1 with rfl | h2
        · omega
        · exact Or.inr h2
    · intro v' hv'
      rcases hQ v' hv' with h1 | h1
      · exact Or.inl h1
      · rcases List.mem_cons.mp h1 with rfl | h2
        · exact absurd hv' hd
        · exact Or.inr h2
  | case4 b stack discovered finished hd h ih =>
    intro hP hQ hRsub v hv s hs hlt
    rw [Eir.postAux, dif_neg hd, dif_neg h] at hv ⊢
    refine ih ?_ ?_ ?_ v hv s hs hlt
    · intro v' hv' s' hs' hlt'
      rcases Finset.mem_insert.mp hv' with rfl | hv2
      · by_cases hsv : s' ∈ insert v' discovered
        · exact Or.inl hsv
        · refine Or.inr (List.mem_append_left _ ?_)
          rw [List.mem_reverse]
          exact List.mem_filter.mpr ⟨hs', by simpa using hsv⟩
      · rcases hP v' hv2 s' hs' hlt' with h1 | h1
        · exact Or.inl (Finset.mem_insert_of_mem h1)
        · exact Or.inr (List.mem_append_right _ h1)
    · intro v' hv'
      rcases Finset.mem_insert.mp hv' with rfl | hv2
      · exact Or.inr (List.mem_append_right _ (List.mem_cons_self v' stack))
      · rcases hQ v' hv2 with h1 | h1
        · exact Or.inl h1
        · exact Or.inr (List.mem_append_right _ h1)
    · exact subset_trans hRsub (Finset.subset_insert b discovered)

/-- Characterization of the post-order DFS iterator: on a graph whose
successor lists stay within range, post-order DFS from an in-range entry
finishes a block exactly when it is reachable from the entry. -/
theorem postAux_spec (succ : Nat → List Nat) (n e : Nat)
    (hclosed : ∀ b s, s ∈ succ b → s < n) (he : e < n) :
    ∀ b, b ∈ Eir.postAux succ n [e] ∅ ∅ ↔
      Relation.ReflTransGen (fun x y => y ∈ succ x) e b := by
  intro b
  constructor
  · intro hb
    refine postAux_sound succ n (Relation.ReflTransGen (fun x y => y ∈ succ x) e)
      (fun x y hx hy => Relation.ReflTransGen.tail hx hy) [e] ∅ ∅ ?_ ?_ ?_ b hb
    · intro x hx
      have : x = e := by simpa using hx
      subst this
      exact Relation.ReflTransGen.refl
    · intro x hx
      simp at hx
    · intro x hx
      simp at hx
  · intro hreach
    induction hreach with
    | refl => exact postAux_stack_mem succ n [e] ∅ ∅ e (by simp) he
    | tail hxy hedge ih =>
      exact postAux_closed succ n [e] ∅ ∅ (by intro v hv; simp at hv)
        (by intro v hv; simp at hv) (Finset.Subset.refl ∅)
        _ ih _ hedge (hclosed _ _ hedge)

/-- Successor lists of `goodFun` stay within its two-block pool. -/
theorem goodFun_closed :
    ∀ b s, s ∈ Eir.goodFun.blockSuccessors b → s < Eir.goodFun.blocks.length := by
  intro b s hs
  rcases Nat.lt_or_ge b 2 with hb | hb
  · interval_cases b
    · have : s = 1 := by
        simpa [Eir.Function.blockSuccessors, Eir.goodFun] using hs
      subst this
      decide
    · simp [Eir.Function.blockSuccessors, Eir.goodFun] at hs
  · have hnone : Eir.goodFun.blocks[b]? = none := by
      apply List.getElem?_eq_none
      simpa [Eir.goodFun] using hb
    simp [Eir.Function.blockSuccessors, hnone] at hs

/-- C5: DFS iteration from the entry visits exactly the blocks reachable
through successor edges from the entry, and post-order DFS iteration
visits exactly the same set of blocks (for any function whose successor
sets stay within its block pool, which the builder guarantees). -/
theorem claim_C5 (f : Eir.Function) (e : Nat)
    (he : f.blockEntry = some e) (hlt : e < f.blocks.length)
    (hclosed : ∀ b s, s ∈ f.blockSuccessors b → s < f.blocks.length) :
    (∀ b, b ∈ f.dfsVisited e ↔ Relation.ReflTransGen f.succEdge e b) ∧
    f.dfsPostVisited e = f.dfsVisited e := by
  have hcl : ∀ b s, s ∈ f.succIter b → s < f.blocks.length := by
    intro b s hs
    exact hclosed b s ((bitSetIter_mem _ s).mp hs)
  have hconv : ∀ b,
      Relation.ReflTransGen (fun x y => y ∈ f.succIter x) e b ↔
        Relation.ReflTransGen f.succEdge e b := by
    intro b
    constructor
    · intro hr
      exact Relation.ReflTransGen.mono
        (fun x y hxy => (bitSetIter_mem _ y).mp hxy) hr
    · intro hr
      exact Relation.ReflTransGen.mono
        (fun x y hxy => (bitSetIter_mem _ y).mpr hxy) hr
  constructor
  · intro b
    rw [Eir.Function.dfsVisited]
    rw [dfsAux_spec f.succIter f.blocks.length e hcl hlt b]
    exact hconv b
  · apply Finset.ext
    intro b
    rw [Eir.Function.dfsPostVisited, Eir.Function.dfsVisited]
    rw [postAux_spec f.succIter f.blocks.length e hcl hlt b]
    rw [dfsAux_spec f.succIter f.blocks.length e hcl hlt b]

/-- Witness for C5 on a concrete two-block function. -/
theorem claim_C5_witness :
    Eir.goodFun.blockEntry = some 0 ∧
    (0 ∈ Eir.goodFun.dfsVisited 0) ∧
    (1 ∈ Eir.goodFun.dfsVisited 0) ∧
    Eir.goodFun.dfsPostVisited 0 = Eir.goodFun.dfsVisited 0 := by
  have h := claim_C5 Eir.goodFun 0 rfl (by decide) goodFun_closed
  refine ⟨rfl, (h.1 0).mpr Relation.ReflTransGen.refl, ?_, h.2⟩
  refine (h.1 1).mpr (Relation.ReflTransGen.single ?_)
  show (1 : Nat) ∈ Eir.goodFun.blockSuccessors 0
  decide

/-- C4: for every function whose entry is set and which passes the
(no-alias part of the) LIR validation, no value of kind Alias appears in
the reads or the argument list of any block reachable from the entry. -/
theorem claim_C4 (f : Eir.Function) (e : Nat)
    (he : f.blockEntry = some e) (hlt : e < f.blocks.length)
    (hclosed : ∀ b s, s ∈ f.blockSuccessors b → s < f.blocks.length)
    (hv : f.validateNoAlias e = true) :
    ∀ b, Relation.ReflTransGen f.succEdge e b →
      ∀ v, v ∈ f.blockReads b ∨ v ∈ f.blockArgs b →
        ∀ v', f.valueKind v ≠ some (Eir.ValueType.alias v') := by
  intro b hreach v hvm v' hk
  have hcl : ∀ b s, s ∈ f.succIter b → s < f.blocks.length := by
    intro b s hs
    exact hclosed b s ((bitSetIter_mem _ s).mp hs)
  have hb : b ∈ f.dfsVisited e := by
    rw [Eir.Function.dfsVisited,
      dfsAux_spec f.succIter f.blocks.length e hcl hlt b]
    exact Relation.ReflTransGen.mono
      (fun x y hxy => (bitSetIter_mem _ y).mpr hxy) hreach
  unfold Eir.Function.validateNoAlias at hv
  have h1 := List.all_eq_true.mp hv b ((bitSetIter_mem _ b).mpr hb)
  have hvm' : v ∈ f.blockReads b ++ f.blockArgs b := by
    rcases hvm with h | h
    · exact List.mem_append_left _ h
    · exact List.mem_append_right _ h
  have h2 := List.all_eq_true.mp h1 v hvm'
  rw [hk] at h2
  simp at h2

/-- Witness for C4 on a concrete validated function. -/
theorem claim_C4_witness :
    Eir.goodFun.blockEntry = some 0 ∧
    Eir.goodFun.validateNoAlias 0 = true ∧
    (∀ v', Eir.goodFun.valueKind 0 ≠ some (Eir.ValueType.alias v')) := by
  have h1 : Eir.goodFun.succIter 0 = [1] := by decide
  have h2 : Eir.goodFun.succIter 1 = [] := by decide
  have hdfs : Eir.goodFun.dfsVisited 0 = insert 1 (insert 0 ∅) := by
    rw [Eir.Function.dfsVisited]
    rw [Eir.dfsAux, dif_neg (by decide)]
    rw [h1]
    have h3 : (([1].filter (fun s => s ∉ insert 0 (∅ : Finset Nat))).reverse
        ++ ([] : List Nat)) = [1] := by decide
    rw [h3]
    rw [Eir.dfsAux, dif_neg (by decide)]
    rw [h2]
    have h4 : ((([] : List Nat).filter
        (fun s => s ∉ insert 1 (insert 0 (∅ : Finset Nat)))).reverse
        ++ ([] : List Nat)) = [] := by decide
    rw [h4]
    rw [Eir.dfsAux]
  have hval : Eir.goodFun.validateNoAlias 0 = true := by
    rw [Eir.Function.validateNoAlias, hdfs]
    decide
  exact ⟨rfl, hval, fun v' =>
    claim_C4 Eir.goodFun 0 rfl (by decide) goodFun_closed hval
      0 Relation.ReflTransGen.refl 0 (Or.inl (by decide)) v'⟩

/-- Binding a pattern's variables bumps the counter by the pattern length,
leaves the scope stack untouched, and assigns only freshly issued
identifiers. -/
theorem bindAll_props (names : List String) :
    ∀ t : Ssa.Tracker,
      (Ssa.bindAll t names).1.counter = t.counter + names.length ∧
      (Ssa.bindAll t names).1.scopes = t.scopes ∧
      ∀ p ∈ (Ssa.bindAll t names).2, t.counter ≤ p.2 := by
  induction names with
  | nil =>
    intro t
    refine ⟨rfl, rfl, ?_⟩
    intro p hp
    simp [Ssa.bindAll] at hp
  | cons n rest ih =>
    intro t
    obtain ⟨ih1, ih2, ih3⟩ := ih { t with counter := t.counter + 1 }
    refine ⟨?_, ?_, ?_⟩
    · show (Ssa.bindAll { t with counter := t.counter + 1 } rest).1.counter = _
      rw [ih1]
      simp [List.length_cons]
      omega
    · exact ih2
    · intro p hp
      have : p = (n, t.counter) ∨
          p ∈ (Ssa.bindAll { t with counter := t.counter + 1 } rest).2 := by
        simpa [Ssa.bindAll, Ssa.Tracker.newSsa] using hp
      rcases this with rfl | hp'
      · exact Nat.le_refl _
      · exact Nat.le_of_succ_le (ih3 p hp')

/-- Unfolding equation for SSA assignment on an equality test. -/
theorem assign_eqTest_eq (t : Ssa.Tracker) (a b : Ssa.SExpr) :
    Ssa.assign t (Ssa.SExpr.eqTest a b) =
      ((Ssa.assign (Ssa.assign t a).1 b).1,
        Ssa.AExpr.eqTest (Ssa.assign t a).2 (Ssa.assign (Ssa.assign t a).1 b).2) :=
  rfl

/-- Unfolding equation for SSA assignment on a let binding. -/
theorem assign_letE_eq (t : Ssa.Tracker) (n : String) (v body : Ssa.SExpr) :
    Ssa.assign t (Ssa.SExpr.letE n v body) =
      (((Ssa.assign ((Ssa.assign t v).1.newSsa.1.pushScope
          [(n, (Ssa.assign t v).1.newSsa.2)]) body).1).popScope,
        Ssa.AExpr.letE n (Ssa.assign t v).1.newSsa.2 (Ssa.assign t v).2
          (Ssa.assign ((Ssa.assign t v).1.newSsa.1.pushScope
            [(n, (Ssa.assign t v).1.newSsa.2)]) body).2) :=
  rfl

/-- Unfolding equation for SSA assignment on a fun (closure) expression. -/
theorem assign_lam_eq (t : Ssa.Tracker) (ps : List String) (body : Ssa.SExpr) :
    Ssa.assign t (Ssa.SExpr.lam ps body) =
      (((Ssa.assign ((Ssa.bindAll t ps).1.pushScope (Ssa.bindAll t ps).2)
          body).1).popScope,
        Ssa.AExpr.lam (Ssa.bindAll t ps).2
          (Ssa.assign ((Ssa.bindAll t ps).1.pushScope (Ssa.bindAll t ps).2)
            body).2) :=
  rfl

/-- Unfolding equation for SSA assignment on a case clause. -/
theorem assign_caseClause_eq (t : Ssa.Tracker) (scrut : Ssa.SExpr)
    (pat : List String) (body : Ssa.SExpr) :
    Ssa.assign t (Ssa.SExpr.caseClause scrut pat body) =
      (((Ssa.assign ((Ssa.bindAll (Ssa.assign t scrut).1 pat).1.pushScope
          (Ssa.bindAll (Ssa.assign t scrut).1 pat).2) body).1).popScope,
        Ssa.AExpr.caseClause (Ssa.assign t scrut).2
          (Ssa.bindAll (Ssa.assign t scrut).1 pat).2
          (Ssa.assign ((Ssa.bindAll (Ssa.assign t scrut).1 pat).1.pushScope
            (Ssa.bindAll (Ssa.assign t scrut).1 pat).2) body).2) :=
  rfl

/-- Unfolding equation for SSA assignment on a receive pattern. -/
theorem assign_receiveE_eq (t : Ssa.Tracker) (pat : List String)
    (body : Ssa.SExpr) :
    Ssa.assign t (Ssa.SExpr.receiveE pat body) =
      (((Ssa.assign ((Ssa.bindAll t pat).1.pushScope (Ssa.bindAll t pat).2)
          body).1).popScope,
        Ssa.AExpr.receiveE (Ssa.bindAll t pat).2
          (Ssa.assign ((Ssa.bindAll t pat).1.pushScope (Ssa.bindAll t pat).2)
            body).2) :=
  rfl

/-- The SSA assignment pass: the counter only grows, the scope stack is
restored on exit, every binder receives a freshly issued identifier (one at
least as large as the incoming counter), and the equality tests of the
output are exactly those of the input - in particular the pass never emits
an equality test for a pattern variable. -/
theorem assign_props (e : Ssa.SExpr) :
    ∀ t : Ssa.Tracker,
      t.counter ≤ (Ssa.assign t e).1.counter ∧
      (Ssa.assign t e).1.scopes = t.scopes ∧
      (∀ s ∈ Ssa.binderSsas (Ssa.assign t e).2, t.counter ≤ s) ∧
      Ssa.eqCountA (Ssa.assign t e).2 = Ssa.eqCountS e := by
  induction e with
  | var n =>
    intro t
    exact ⟨Nat.le_refl _, rfl, by simp [Ssa.assign, Ssa.binderSsas], rfl⟩
  | lit n =>
    intro t
    exact ⟨Nat.le_refl _, rfl, by simp [Ssa.assign, Ssa.binderSsas], rfl⟩
  | eqTest a b iha ihb =>
    intro t
    obtain ⟨ha1, ha2, ha3, ha4⟩ := iha t
    obtain ⟨hb1, hb2, hb3, hb4⟩ := ihb (Ssa.assign t a).1
    rw [assign_eqTest_eq]
    refine ⟨le_trans ha1 hb1, by rw [hb2, ha2], ?_, ?_⟩
    · intro s hs
      simp only [Ssa.binderSsas, List.mem_append] at hs
      rcases hs with h | h
      · exact ha3 s h
      · exact le_trans ha1 (hb3 s h)
    · simp only [Ssa.eqCountA, Ssa.eqCountS, ha4, hb4]
  | letE n v body ihv ihb =>
    intro t
    obtain ⟨hv1, hv2, hv3, hv4⟩ := ihv t
    obtain ⟨hb1, hb2, hb3, hb4⟩ := ihb
      ((Ssa.assign t v).1.newSsa.1.pushScope [(n, (Ssa.assign t v).1.newSsa.2)])
    rw [assign_letE_eq]
    refine ⟨?_, ?_, ?_, ?_⟩
    · show t.counter ≤ (Ssa.assign _ body).1.counter
      calc t.counter ≤ (Ssa.assign t v).1.counter := hv1
        _ ≤ (Ssa.assign t v).1.counter + 1 := Nat.le_succ _
        _ ≤ _ := hb1
    · show (Ssa.assign _ body).1.scopes.tail = t.scopes
      rw [hb2]
      show ([(n, (Ssa.assign t v).1.newSsa.2)] :: (Ssa.assign t v).1.scopes).tail
        = t.scopes
      rw [List.tail_cons, hv2]
    · intro s hs
      simp only [Ssa.binderSsas, List.mem_cons, List.mem_append] at hs
      rcases hs with rfl | h | h
      · exact hv1
      · exact hv3 s h
      · exact le_trans (le_trans hv1 (Nat.le_succ _)) (hb3 s h)
    · simp only [Ssa.eqCountA, Ssa.eqCountS, hv4, hb4]
  | lam ps body ihb =>
    intro t
    obtain ⟨hp1, hp2, hp3⟩ := bindAll_props ps t
    obtain ⟨hb1, hb2, hb3, hb4⟩ := ihb
      ((Ssa.bindAll t ps).1.pushScope (Ssa.bindAll t ps).2)
    rw [assign_lam_eq]
    refine ⟨?_, ?_, ?_, ?_⟩
    · show t.counter ≤ (Ssa.assign _ body).1.counter
      calc t.counter ≤ (Ssa.bindAll t ps).1.counter := by rw [hp1]; omega
        _ ≤ _ := hb1
    · show (Ssa.assign _ body).1.scopes.tail = t.scopes
      rw [hb2]
      show ((Ssa.bindAll t ps).2 :: (Ssa.bindAll t ps).1.scopes).tail = t.scopes
      rw [List.tail_cons, hp2]
    · intro s hs
      simp only [Ssa.binderSsas, List.mem_append, List.mem_map] at hs
      rcases hs with ⟨p, hp, rfl⟩ | h
      · exact hp3 p hp
      · refine le_trans ?_ (hb3 s h)
        show t.counter ≤ (Ssa.bindAll t ps).1.counter
        rw [hp1]
        omega
    · simp only [Ssa.eqCountA, Ssa.eqCountS, hb4]
  | caseClause scrut pat body ihs ihb =>
    intro t
    obtain ⟨hs1, hs2, hs3, hs4⟩ := ihs t
    obtain ⟨hp1, hp2, hp3⟩ := bindAll_props pat (Ssa.assign t scrut).1
    obtain ⟨hb1, hb2, hb3, hb4⟩ := ihb
      ((Ssa.bindAll (Ssa.assign t scrut).1 pat).1.pushScope
        (Ssa.bindAll (Ssa.assign t scrut).1 pat).2)
    rw [assign_caseClause_eq]
    refine ⟨?_, ?_, ?_, ?_⟩
    · show t.counter ≤ (Ssa.assign _ body).1.counter
      calc t.counter ≤ (Ssa.assign t scrut).1.counter := hs1
        _ ≤ (Ssa.bindAll (Ssa.assign t scrut).1 pat).1.counter := by
              rw [hp1]; omega
        _ ≤ _ := hb1
    · show (Ssa.assign _ body).1.scopes.tail = t.scopes
      rw [hb2]
      show ((Ssa.bindAll (Ssa.assign t scrut).1 pat).2 ::
        (Ssa.bindAll (Ssa.assign t scrut).1 pat).1.scopes).tail = t.scopes
      rw [List.tail_cons, hp2, hs2]
    · intro s hs
      simp only [Ssa.binderSsas, List.mem_append, List.mem_map] at hs
      rcases hs with (h | ⟨p, hp, rfl⟩) | h
      · exact hs3 s h
      · exact le_trans hs1 (hp3 p hp)
      · refine le_trans ?_ (hb3 s h)
        show t.counter ≤ (Ssa.bindAll (Ssa.assign t scrut).1 pat).1.counter
        rw [hp1]
        exact le_trans hs1 (Nat.le_add_right _ _)
    · simp only [Ssa.eqCountA, Ssa.eqCountS, hs4, hb4]
  | receiveE pat body ihb =>
    intro t
    obtain ⟨hp1, hp2, hp3⟩ := bindAll_props pat t
    obtain ⟨hb1, hb2, hb3, hb4⟩ := ihb
      ((Ssa.bindAll t pat).1.pushScope (Ssa.bindAll t pat).2)
    rw [assign_receiveE_eq]
    refine ⟨?_, ?_, ?_, ?_⟩
    · show t.counter ≤ (Ssa.assign _ body).1.counter
      calc t.counter ≤ (Ssa.bindAll t pat).1.counter := by rw [hp1]; omega
        _ ≤ _ := hb1
    · show (Ssa.assign _ body).1.scopes.tail = t.scopes
      rw [hb2]
      show ((Ssa.bindAll t pat).2 :: (Ssa.bindAll t pat).1.scopes).tail = t.scopes
      rw [List.tail_cons, hp2]
    · intro s hs
      simp only [Ssa.binderSsas, List.mem_append, List.mem_map] at hs
      rcases hs with ⟨p, hp, rfl⟩ | h
      · exact hp3 p hp
      · refine le_trans ?_ (hb3 s h)
        show t.counter ≤ (Ssa.bindAll t pat).1.counter
        rw [hp1]
        omega
    · simp only [Ssa.eqCountA, Ssa.eqCountS, hb4]

/-- C3: during SSA assignment every pattern variable (function argument,
case-clause pattern, fun parameter, let binding, receive pattern) receives
a fresh dataflow identifier distinct from every identifier bound in an
outer scope - it shadows rather than re-uses any outer variable of the
same name - and the pass emits no equality test: the equality tests of the
output are exactly those already present in the input. -/
theorem claim_C3 (t : Ssa.Tracker) (e : Ssa.SExpr) (s₀ : Nat)
    (hwf : Ssa.TrackerWf t) (hmem : s₀ ∈ Ssa.scopeSsas t) :
    (∀ s ∈ Ssa.binderSsas (Ssa.assign t e).2, s ≠ s₀) ∧
    Ssa.eqCountA (Ssa.assign t e).2 = Ssa.eqCountS e := by
  obtain ⟨_, _, h3, h4⟩ := assign_props e t
  refine ⟨?_, h4⟩
  intro s hs
  have hfresh : t.counter ≤ s := h3 s hs
  have houter : s₀ < t.counter := hwf s₀ hmem
  omega

/-- Witness for C3: assigning SSA to `case A of \x7bA\x7d -> A end` under an
outer binding of A (identifier 0) gives the pattern variable the fresh
identifier 1, resolves the clause body to the inner binding, and emits no
equality test. -/
theorem claim_C3_witness :
    Ssa.TrackerWf { counter := 1, scopes := [[("A", 0)]] } ∧
    0 ∈ Ssa.scopeSsas { counter := 1, scopes := [[("A", 0)]] } ∧
    ((∀ s ∈ Ssa.binderSsas
        (Ssa.assign { counter := 1, scopes := [[("A", 0)]] }
          (Ssa.SExpr.caseClause (Ssa.SExpr.var "A") ["A"]
            (Ssa.SExpr.var "A"))).2, s ≠ 0) ∧
      Ssa.eqCountA (Ssa.assign { counter := 1, scopes := [[("A", 0)]] }
          (Ssa.SExpr.caseClause (Ssa.SExpr.var "A") ["A"]
            (Ssa.SExpr.var "A"))).2 =
        Ssa.eqCountS (Ssa.SExpr.caseClause (Ssa.SExpr.var "A") ["A"]
          (Ssa.SExpr.var "A"))) ∧
    (Ssa.assign { counter := 1, scopes := [[("A", 0)]] }
        (Ssa.SExpr.caseClause (Ssa.SExpr.var "A") ["A"]
          (Ssa.SExpr.var "A"))).2 =
      Ssa.AExpr.caseClause (Ssa.AExpr.var "A" (some 0)) [("A", 1)]
        (Ssa.AExpr.var "A" (some 1)) := by
  have hwf : Ssa.TrackerWf { counter := 1, scopes := [[("A", 0)]] } := by
    intro s hs
    have h0 : s = 0 := by simpa [Ssa.scopeSsas] using hs
    subst h0
    show (0 : Nat) < 1
    omega
  have hmem : 0 ∈ Ssa.scopeSsas { counter := 1, scopes := [[("A", 0)]] } := by
    simp [Ssa.scopeSsas]
  exact ⟨hwf, hmem,
    claim_C3 { counter := 1, scopes := [[("A", 0)]] }
      (Ssa.SExpr.caseClause (Ssa.SExpr.var "A") ["A"] (Ssa.SExpr.var "A"))
      0 hwf hmem,
    by decide⟩

/-- Unfolding equation for extraction at a closure literal. -/
theorem extractExpr_closure_eq (host : String) (c : Lam.Collector)
    (caps : List Nat) (params : Nat) (body : Lam.HExpr) :
    Lam.extractExpr host c (Lam.HExpr.closure caps params body) =
      ( Lam.HExpr.makeClosure (Lam.extractExpr host c body).2.envs.length
          (Lam.extractExpr host c body).2.funs.length caps
      , { funs := (Lam.extractExpr host c body).2.funs ++
            [ { name := host, arity := caps.length + params
              , body := (Lam.extractExpr host c body).1
              , lambda := some ((Lam.extractExpr host c body).2.envs.length,
                  (Lam.extractExpr host c body).2.funs.length) } ]
        , envs := (Lam.extractExpr host c body).2.envs ++
            [ { captures := caps } ] } ) :=
  rfl

/-- Unfolding equation for extraction at an application. -/
theorem extractExpr_app_eq (host : String) (c : Lam.Collector)
    (f a : Lam.HExpr) :
    Lam.extractExpr host c (Lam.HExpr.app f a) =
      ( Lam.HExpr.app (Lam.extractExpr host c f).1
          (Lam.extractExpr host (Lam.extractExpr host c f).2 a).1
      , (Lam.extractExpr host (Lam.extractExpr host c f).2 a).2 ) :=
  rfl

/-- Unfolding equation for extraction at a let binding. -/
theorem extractExpr_letE_eq (host : String) (c : Lam.Collector)
    (b : Nat) (v body : Lam.HExpr) :
    Lam.extractExpr host c (Lam.HExpr.letE b v body) =
      ( Lam.HExpr.letE b (Lam.extractExpr host c v).1
          (Lam.extractExpr host (Lam.extractExpr host c v).2 body).1
      , (Lam.extractExpr host (Lam.extractExpr host c v).2 body).2 ) :=
  rfl

/-- Lambda extraction over one expression: the collector gains exactly one
lifted function and one lambda environment per closure site, the rewritten
expression is closure-free, and every lifted function body is closure-free
(once the incoming collector's are). -/
theorem extractExpr_props (e : Lam.HExpr) :
    ∀ (host : String) (c : Lam.Collector),
      (Lam.extractExpr host c e).2.funs.length =
        c.funs.length + Lam.countClosures e ∧
      (Lam.extractExpr host c e).2.envs.length =
        c.envs.length + Lam.countClosures e ∧
      Lam.hasClosure (Lam.extractExpr host c e).1 = false ∧
      ((∀ f ∈ c.funs, Lam.hasClosure f.body = false) →
        ∀ f ∈ (Lam.extractExpr host c e).2.funs,
          Lam.hasClosure f.body = false) := by
  induction e with
  | var s =>
    intro host c
    exact ⟨rfl, rfl, rfl, fun h => h⟩
  | lit n =>
    intro host c
    exact ⟨rfl, rfl, rfl, fun h => h⟩
  | closure caps params body ih =>
    intro host c
    obtain ⟨ih1, ih2, ih3, ih4⟩ := ih host c
    rw [extractExpr_closure_eq]
    refine ⟨?_, ?_, rfl, ?_⟩
    · simp only [List.length_append, List.length_cons, List.length_nil, ih1,
        Lam.countClosures]
      omega
    · simp only [List.length_append, List.length_cons, List.length_nil, ih2,
        Lam.countClosures]
      omega
    · intro hc f hf
      simp only [List.mem_append, List.mem_cons, List.not_mem_nil] at hf
      rcases hf with hf | hf | hf
      · exact ih4 hc f hf
      · rw [hf]
        exact ih3
      · exact absurd hf (by simp)
  | makeClosure envIdx funIdx caps =>
    intro host c
    exact ⟨rfl, rfl, rfl, fun h => h⟩
  | app f a ihf iha =>
    intro host c
    obtain ⟨hf1, hf2, hf3, hf4⟩ := ihf host c
    obtain ⟨ha1, ha2, ha3, ha4⟩ := iha host (Lam.extractExpr host c f).2
    rw [extractExpr_app_eq]
    refine ⟨?_, ?_, ?_, ?_⟩
    · rw [ha1, hf1, Lam.countClosures]
      omega
    · rw [ha2, hf2, Lam.countClosures]
      omega
    · simp only [Lam.hasClosure, hf3, ha3, Bool.or_self]
    · intro hc g hg
      exact ha4 (hf4 hc) g hg
  | letE b v body ihv ihb =>
    intro host c
    obtain ⟨hv1, hv2, hv3, hv4⟩ := ihv host c
    obtain ⟨hb1, hb2, hb3, hb4⟩ := ihb host (Lam.extractExpr host c v).2
    rw [extractExpr_letE_eq]
    refine ⟨?_, ?_, ?_, ?_⟩
    · rw [hb1, hv1, Lam.countClosures]
      omega
    · rw [hb2, hv2, Lam.countClosures]
      omega
    · simp only [Lam.hasClosure, hv3, hb3, Bool.or_self]
    · intro hc g hg
      exact hb4 (hv4 hc) g hg

/-- Lambda extraction over a function list: host bodies become closure-free
with the list length preserved, and the shared collector gains one lifted
function per closure site across all hosts. -/
theorem extractFuns_props (funs : List Lam.HFun) :
    ∀ c : Lam.Collector,
      (Lam.extractFuns c funs).2.funs.length =
        c.funs.length +
          (funs.map (fun f => Lam.countClosures f.body)).sum ∧
      (Lam.extractFuns c funs).1.length = funs.length ∧
      (∀ f ∈ (Lam.extractFuns c funs).1, Lam.hasClosure f.body = false) ∧
      ((∀ f ∈ c.funs, Lam.hasClosure f.body = false) →
        ∀ f ∈ (Lam.extractFuns c funs).2.funs,
          Lam.hasClosure f.body = false) := by
  induction funs with
  | nil =>
    intro c
    refine ⟨by simp [Lam.extractFuns], rfl, ?_, fun h => h⟩
    intro f hf
    simp [Lam.extractFuns] at hf
  | cons g rest ih =>
    intro c
    obtain ⟨he1, he2, he3, he4⟩ := extractExpr_props g.body g.name c
    obtain ⟨ih1, ih2, ih3, ih4⟩ := ih (Lam.extractExpr g.name c g.body).2
    refine ⟨?_, ?_, ?_, ?_⟩
    · show (Lam.extractFuns (Lam.extractExpr g.name c g.body).2 rest).2.funs.length = _
      rw [ih1, he1, List.map_cons, List.sum_cons]
      omega
    · show ((_ : Lam.HFun) :: (Lam.extractFuns _ rest).1).length = _
      rw [List.length_cons, ih2, List.length_cons]
    · intro f hf
      have : f = { g with body := (Lam.extractExpr g.name c g.body).1 } ∨
          f ∈ (Lam.extractFuns (Lam.extractExpr g.name c g.body).2 rest).1 := by
        simpa [Lam.extractFuns] using hf
      rcases this with rfl | hf'
      · exact he3
      · exact ih3 f hf'
    · intro hc f hf
      exact ih4 (he4 hc) f hf

/-- C7: after lambda extraction, no function of the module (hosts and
lifted functions alike) contains a closure literal; the module's function
list grows by exactly the total number of closure creation sites; and the
lambda environments are recorded on the module. -/
theorem claim_C7 (m : Lam.HModule) :
    (Lam.extractModule m).functions.length =
      m.functions.length +
        (m.functions.map (fun f => Lam.countClosures f.body)).sum ∧
    (∀ f ∈ (Lam.extractModule m).functions, Lam.hasClosure f.body = false) ∧
    ((Lam.extractModule m).lambdaEnvs).isSome = true := by
  obtain ⟨h1, h2, h3, h4⟩ :=
    extractFuns_props m.functions { funs := [], envs := [] }
  refine ⟨?_, ?_, rfl⟩
  · show ((Lam.extractFuns { funs := [], envs := [] } m.functions).1 ++
      (Lam.extractFuns { funs := [], envs := [] } m.functions).2.funs).length = _
    rw [List.length_append, h1, h2]
    simp
  · intro f hf
    have : f ∈ (Lam.extractFuns { funs := [], envs := [] } m.functions).1 ∨
        f ∈ (Lam.extractFuns { funs := [], envs := [] } m.functions).2.funs := by
      simpa [Lam.extractModule] using hf
    rcases this with hf' | hf'
    · exact h3 f hf'
    · refine h4 ?_ f hf'
      intro g hg
      simp at hg

/-- Witness for C7 on a one-function module with a single closure site. -/
theorem claim_C7_witness :
    (Lam.extractModule
      { name := "m"
      , functions :=
          [ { name := "f", arity := 1
            , body := Lam.HExpr.letE 0
                (Lam.HExpr.closure [5] 1 (Lam.HExpr.var 9))
                (Lam.HExpr.app (Lam.HExpr.var 0) (Lam.HExpr.lit 3))
            , lambda := none } ]
      , lambdaEnvs := none }).functions.length = 2 ∧
    (Lam.extractModule
      { name := "m"
      , functions :=
          [ { name := "f", arity := 1
            , body := Lam.HExpr.letE 0
                (Lam.HExpr.closure [5] 1 (Lam.HExpr.var 9))
                (Lam.HExpr.app (Lam.HExpr.var 0) (Lam.HExpr.lit 3))
            , lambda := none } ]
      , lambdaEnvs := none }).lambdaEnvs =
      some [ { captures := [5] } ] := by
  constructor
  · have h := claim_C7
      { name := "m"
      , functions :=
          [ { name := "f", arity := 1
            , body := Lam.HExpr.letE 0
                (Lam.HExpr.closure [5] 1 (Lam.HExpr.var 9))
                (Lam.HExpr.app (Lam.HExpr.var 0) (Lam.HExpr.lit 3))
            , lambda := none } ]
      , lambdaEnvs := none }
    rw [h.1]
    decide
  · decide
